import Mathlib

set_option maxRecDepth 8000

/-!
Verification of the text-processing core of `src/app.py` (a Streamlit
research-paper analyzer).  The file shallowly embeds, at the level of
characters and words:

* Python's `str.split()` (whitespace tokenisation) and `str.strip()`;
* `split_text` (src/app.py lines 82-98): the sliding-window chunker;
* `format_response` (src/app.py lines 131-183): the rule-based section
  splitter and renderer;
* `query_ollama` (src/app.py lines 100-129): modelled over an abstract
  request outcome, since the network call itself is external;
* the session-state flags and the `main` processing action
  (src/app.py lines 18-23 and 247-261) as a small transition system.

Strings are handled as `List Char` internally; `String` wrappers mirror
the Python signatures.  Python's `words[i:i+n]` slice is
`(words.drop i).take n`; advancing the loop index `i += s` corresponds to
dropping `s` elements from the current suffix.
-/

namespace PaperAnalyzer

/-- Python `str.split()` helper: accumulate the current (reversed) word while
scanning the character list; whitespace ends a word, empty words are dropped. -/
def pySplitAux (cur : List Char) : List Char → List (List Char)
  | [] => if cur = [] then [] else [cur.reverse]
  | c :: cs =>
    if c.isWhitespace then
      if cur = [] then pySplitAux [] cs
      else cur.reverse :: pySplitAux [] cs
    else pySplitAux (c :: cur) cs

/-- Python `str.split()` with no separator: maximal runs of non-whitespace
characters, in order; a whitespace-only input gives `[]`. -/
def pySplit (cs : List Char) : List (List Char) :=
  pySplitAux [] cs

/-- Python `str.strip()`: remove leading and trailing whitespace. -/
def pyStrip (cs : List Char) : List Char :=
  ((cs.dropWhile Char.isWhitespace).reverse.dropWhile Char.isWhitespace).reverse

/-- The `while i < len(words)` loop of `split_text` (src/app.py lines 91-97),
rewritten on the suffix `words[i:]`: each iteration emits `words[i:i+w]`
(= `take w` of the suffix) and advances `i` by `s = chunk_size - overlap`
(= `drop s` of the suffix); the loop stops when `i >= len(words)` (= suffix
empty).  `fuel` bounds the number of iterations: with `s ≥ 1` the suffix
strictly shrinks, so `fuel = words.length` is enough; with `s = 0` the Python
loop would not terminate, which the embedding models as fuel exhaustion. -/
def chunkLoop (w s : Nat) : Nat → List α → List (List α)
  | _, [] => []
  | 0, _ :: _ => []
  | fuel + 1, x :: xs => ((x :: xs).take w) :: chunkLoop w s fuel ((x :: xs).drop s)

/-- Word-level core of `split_text`: the guard `if not words: return []`
followed by the chunking loop started at `i = 0`. -/
def splitWords (chunk_size overlap : Nat) (words : List α) : List (List α) :=
  if words.isEmpty then []
  else chunkLoop chunk_size (chunk_size - overlap) words.length words

/-- Python `" ".join(words)` at character level. -/
def joinWords : List (List Char) → List Char
  | [] => []
  | [w] => w
  | w :: ws => w ++ ' ' :: joinWords (ws)

/-- Function `split_text(text, chunk_size, overlap)` (src/app.py lines 82-98): the
`if not text` guard, whitespace tokenisation, the `if not words` guard, then
the chunk loop, each chunk rendered back with `" ".join`. -/
def split_text (text : String) (chunk_size : Nat := 800) (overlap : Nat := 100) :
    List String :=
  if text = "" then []
  else
    let words := pySplit text.toList
    if words = [] then []
    else
      (chunkLoop chunk_size (chunk_size - overlap) words.length words).map
        (fun ws => (joinWords ws).asString)

/-- Concatenate chunk word lists, dropping the first `o` words of every chunk
except the first. -/
def reassemble (o : Nat) : List (List α) → List α
  | [] => []
  | c :: cs => c ++ (cs.map (List.drop o)).flatten

/-- Python `str.split(sep)` for a one-character separator: splits at every
occurrence, keeping empty pieces; the empty string gives `[""]`. -/
def splitOnChar (sep : Char) : List Char → List (List Char)
  | [] => [[]]
  | c :: cs =>
    if c = sep then [] :: splitOnChar sep cs
    else
      match splitOnChar sep cs with
      | [] => [[c]]
      | w :: ws => (c :: w) :: ws

/-- Python substring containment `pat in s`. -/
def containsSub (pat : List Char) : List Char → Bool
  | [] => pat.isEmpty
  | c :: cs => pat.isPrefixOf (c :: cs) || containsSub pat cs

/-- Python `str.upper()` (the inputs of interest are ASCII). -/
def pyUpper (cs : List Char) : List Char := cs.map Char.toUpper

/-- The five fixed section labels of `format_response`
(src/app.py lines 138-144). -/
inductive Label
  | keyConcept
  | mathFormulation
  | mathIntuition
  | practicalImplications
  | summary
deriving DecidableEq, Fintype

def Label.name : Label → List Char
  | .keyConcept => "KEY CONCEPT".toList
  | .mathFormulation => "MATHEMATICAL FORMULATION".toList
  | .mathIntuition => "MATHEMATICAL INTUITION".toList
  | .practicalImplications => "PRACTICAL IMPLICATIONS".toList
  | .summary => "SUMMARY".toList

/-- The `elif` chain of section-header detection on an already-stripped line
(src/app.py lines 154-165): the uppercased line contains the label name, or
the line starts with the label's ordinal (`"1."` … `"5."`). -/
def detectSection (line : List Char) : Option Label :=
  let lu := pyUpper line
  if containsSub "KEY CONCEPT".toList lu || "1.".toList.isPrefixOf line then
    some .keyConcept
  else if containsSub "MATHEMATICAL FORMULATION".toList lu || "2.".toList.isPrefixOf line then
    some .mathFormulation
  else if containsSub "MATHEMATICAL INTUITION".toList lu || "3.".toList.isPrefixOf line then
    some .mathIntuition
  else if containsSub "PRACTICAL IMPLICATIONS".toList lu || "4.".toList.isPrefixOf line then
    some .practicalImplications
  else if containsSub "SUMMARY".toList lu || "5.".toList.isPrefixOf line then
    some .summary
  else none

/-- The `sections` dictionary: one accumulated text per label. -/
structure Sections where
  keyConcept : List Char
  mathFormulation : List Char
  mathIntuition : List Char
  practicalImplications : List Char
  summary : List Char
deriving DecidableEq

def Sections.get (s : Sections) : Label → List Char
  | .keyConcept => s.keyConcept
  | .mathFormulation => s.mathFormulation
  | .mathIntuition => s.mathIntuition
  | .practicalImplications => s.practicalImplications
  | .summary => s.summary

def Sections.set (s : Sections) : Label → List Char → Sections
  | .keyConcept, v => { s with keyConcept := v }
  | .mathFormulation, v => { s with mathFormulation := v }
  | .mathIntuition, v => { s with mathIntuition := v }
  | .practicalImplications, v => { s with practicalImplications := v }
  | .summary, v => { s with summary := v }

def emptySections : Sections := ⟨[], [], [], [], []⟩

/-- Loop state of the line scan: `current_section` and the accumulated
sections. -/
structure ParseState where
  current : Option Label
  sections : Sections
deriving DecidableEq

def initParse : ParseState := ⟨none, emptySections⟩

/-- One iteration of the `for line in lines` loop (src/app.py lines 149-171):
strip the line, skip it if blank, switch `current_section` on a detected
header, otherwise append the line to the current section (space-separated). -/
def stepLine (st : ParseState) (rawLine : List Char) : ParseState :=
  if pyStrip rawLine = [] then st
  else
    match detectSection (pyStrip rawLine) with
    | some l => { st with current := some l }
    | none =>
      match st.current with
      | some cur =>
        { st with sections := st.sections.set cur (if st.sections.get cur = [] then pyStrip rawLine else st.sections.get cur ++ ' ' :: pyStrip rawLine) }
      | none => st

/-- The full line scan of `format_response` (src/app.py lines 146-171). -/
def parseLines (lines : List (List Char)) : Sections :=
  (lines.foldl stepLine initParse).sections

/-- Iteration order of the `sections.items()` loop: Python dicts preserve
insertion order, so the five labels come in declaration order. -/
def labelOrder : List Label :=
  [.keyConcept, .mathFormulation, .mathIntuition, .practicalImplications, .summary]

def placeholder : List Char := "*Information not specified in response*".toList

/-- One iteration of the output loop (src/app.py lines 175-182): a section
with (non-blank) content is rendered under its heading; an empty section gets
the placeholder, but only when the raw input is non-blank; otherwise nothing
is emitted for it. -/
def renderSection (raw : List Char) (secs : Sections) (l : Label) : List Char :=
  if secs.get l ≠ [] ∧ pyStrip (secs.get l) ≠ [] then
    "### ".toList ++ l.name ++ '\n' :: (pyStrip (secs.get l) ++ "\n\n".toList)
  else if pyStrip raw ≠ [] then
    "### ".toList ++ l.name ++ '\n' :: (placeholder ++ "\n\n".toList)
  else []

/-- Check `raw.startswith("Error:") or raw.startswith("API Error:")`
(src/app.py line 134). -/
def errPrefixed (raw : List Char) : Bool :=
  "Error:".toList.isPrefixOf raw || "API Error:".toList.isPrefixOf raw

/-- Function `format_response` (src/app.py lines 131-183): error strings are echoed
with the `**❌ …**` marker; otherwise the response is split at newlines,
scanned into sections, and rendered under the fixed header. -/
def format_response (raw : String) : String :=
  if errPrefixed raw.toList then "**❌ " ++ raw ++ "**"
  else
    let secs := parseLines (splitOnChar '\n' raw.toList)
    (labelOrder.foldl (fun acc l => acc ++ renderSection raw.toList secs l)
      "## 📊 Research Paper Analysis\n\n".toList).asString

/-- Some line is detected as the header of section `l` and the line right after
it is non-blank and not itself a header. -/
def hasContentfulHeader (l : Label) : List (List Char) → Bool
  | [] => false
  | [_] => false
  | a :: b :: rest =>
    (decide (detectSection (pyStrip a) = some l) &&
       decide (detectSection (pyStrip b) = none) && decide (pyStrip b ≠ [])) ||
      hasContentfulHeader l (b :: rest)

/-- Every non-empty accumulated section contains a non-whitespace character
(its pieces are non-empty stripped lines). -/
def SectionsGood (secs : Sections) : Prop :=
  ∀ l, secs.get l ≠ [] → ∃ ch ∈ secs.get l, ch.isWhitespace = false

/-- The default of `os.getenv('OLLAMA_URL', 'http://localhost:11434')`
(src/app.py line 12). -/
def OLLAMA_BASE_URL : String := "http://localhost:11434"

/-- Abstract outcome of one `query_ollama` call: the readiness check and the
HTTP POST are external effects, so the embedding takes their combined outcome
as input.  `httpReply` carries the HTTP status code, the response body text,
and the optional `"response"` JSON field. -/
inductive RequestOutcome
  | notReady
  | timeout
  | connectionError
  | httpReply (status : Nat) (text : String) (responseField : Option String)
  | otherException (msg : String)

/-- Function `query_ollama` (src/app.py lines 100-129): the readiness guard, the
status-200 branch reading the `"response"` field, the non-200 `API Error:`
string, and the three `except` branches.  Every branch returns a string;
nothing is raised. -/
def query_ollama (outcome : RequestOutcome) : String :=
  match outcome with
  | .notReady => "Error: AI model is not ready yet. Please wait a moment and try again."
  | .httpReply status text responseField =>
      if status = 200 then responseField.getD "No response from model."
      else "API Error: " ++ toString status ++ " - " ++ text
  | .timeout => "Error: Request timeout - the AI service is taking too long to respond."
  | .connectionError =>
      "Error: Cannot connect to AI service at " ++ OLLAMA_BASE_URL ++
        ". Please check if the backend is running."
  | .otherException msg => "Error: " ++ msg

/-- The failure outcomes named by the claim: request timeout, connection
failure, non-200 HTTP status. -/
def isFailure : RequestOutcome → Bool
  | .timeout => true
  | .connectionError => true
  | .httpReply status _ _ => decide (status ≠ 200)
  | _ => false

/-- Python `str.strip()` at string level: `extract_text_from_pdf` returns
`text.strip()` (src/app.py line 77), so every extracted text is of this form. -/
def stripS (s : String) : String := (pyStrip s.toList).asString

/-- The three session-state entries and their initial values
(src/app.py lines 18-23). -/
structure SessionState where
  chunks : List String
  processed : Bool
  model_ready : Bool

def initialState : SessionState :=
  { chunks := [], processed := false, model_ready := false }

/-- The "Process Paper" action (src/app.py lines 247-261): `raw` is the text
extracted from the PDF pages before the final `strip()` of
`extract_text_from_pdf`; when the stripped text is truthy and longer than 100
characters it is chunked with the default parameters and `processed` is set;
otherwise the state is unchanged (an error message is shown instead). -/
def applyProcess (st : SessionState) (raw : String) : SessionState :=
  if stripS raw ≠ "" ∧ 100 < (stripS raw).length then
    { st with chunks := split_text (stripS raw) 800 100, processed := true }
  else st

/-- One user action: the readiness check (src/app.py lines 226-232), the
process-paper action, or any analysis action, which reads but never writes
`chunks` and `processed` (src/app.py lines 273-323). -/
inductive Step : SessionState → SessionState → Prop
  | checkReady (st : SessionState) (ok : Bool) :
      Step st { st with model_ready := st.model_ready || ok }
  | process (st : SessionState) (raw : String) : Step st (applyProcess st raw)
  | analyze (st : SessionState) : Step st st

/-- States reachable from the initial session state by user actions. -/
inductive Reachable : SessionState → Prop
  | init : Reachable initialState
  | step {s s' : SessionState} : Reachable s → Step s s' → Reachable s'

@[simp] theorem chunkLoop_nil (w s fuel : Nat) :
    chunkLoop w s fuel ([] : List α) = [] := by
  cases fuel <;> rfl

theorem chunkLoop_cons (w s fuel : Nat) (x : α) (xs : List α) :
    chunkLoop w s (fuel + 1) (x :: xs) =
      ((x :: xs).take w) :: chunkLoop w s fuel ((x :: xs).drop s) := rfl

/-- With a positive step, any fuel at least `l.length` computes the same chunk
list as fuel exactly `l.length`: the loop needs at most `l.length` iterations. -/
theorem chunkLoop_fuel (w s : Nat) (hs : 0 < s) :
    ∀ (n fuel : Nat) (l : List α), l.length ≤ n → l.length ≤ fuel →
      chunkLoop w s fuel l = chunkLoop w s l.length l := by
  intro n
  induction n with
  | zero =>
    intro fuel l h1 _
    have hl : l = [] := List.length_eq_zero.mp (Nat.le_zero.mp h1)
    subst hl; simp
  | succ n ih =>
    intro fuel l h1 h2
    cases l with
    | nil => simp
    | cons x xs =>
      cases fuel with
      | zero => simp at h2
      | succ fuel =>
        have hlen : (x :: xs).length = xs.length + 1 := rfl
        rw [chunkLoop_cons, hlen, chunkLoop_cons]
        congr 1
        have hd : ((x :: xs).drop s).length ≤ n := by
          rw [List.length_drop]; simp at h1 ⊢; omega
        have e1 := ih fuel ((x :: xs).drop s) hd
          (by rw [List.length_drop]; simp at h2 ⊢; omega)
        have e2 := ih xs.length ((x :: xs).drop s) hd
          (by rw [List.length_drop]; simp; omega)
        rw [e1, e2]

/-- Chunk `k` of the loop output is the slice `words[k*s : k*s + w]`. -/
theorem chunkLoop_getD (w s : Nat) (hs : 0 < s) :
    ∀ (n : Nat) (l : List α) (fuel k : Nat), l.length ≤ n → l.length ≤ fuel →
      k * s < l.length →
      (chunkLoop w s fuel l).getD k [] = (l.drop (k * s)).take w := by
  intro n
  induction n with
  | zero => intro fuel l _ h1 _ hk; omega
  | succ n ih =>
    intro l fuel k h1 h2 hk
    cases l with
    | nil => simp at hk
    | cons x xs =>
      cases fuel with
      | zero => simp at h2
      | succ fuel =>
        rw [chunkLoop_cons]
        cases k with
        | zero => simp
        | succ k =>
          have hd1 : ((x :: xs).drop s).length ≤ n := by
            rw [List.length_drop]; simp at h1 ⊢; omega
          have hd2 : ((x :: xs).drop s).length ≤ fuel := by
            rw [List.length_drop]; simp at h2 ⊢; omega
          have hd3 : k * s < ((x :: xs).drop s).length := by
            rw [List.length_drop]
            have : (k + 1) * s = k * s + s := by ring
            simp at hk ⊢; omega
          have := ih ((x :: xs).drop s) fuel k hd1 hd2 hd3
          simp only [List.getD_cons_succ, this, List.drop_drop]
          congr 2
          ring

/-- The loop emits `⌈l.length / s⌉ = (l.length - 1) / s + 1` chunks on a
non-empty list. -/
theorem chunkLoop_length (w s : Nat) (hs : 0 < s) :
    ∀ (n : Nat) (l : List α) (fuel : Nat), l.length ≤ n → l.length ≤ fuel →
      l ≠ [] →
      (chunkLoop w s fuel l).length = (l.length - 1) / s + 1 := by
  intro n
  induction n with
  | zero =>
    intro l fuel h1 _ hne
    cases l with
    | nil => exact absurd rfl hne
    | cons x xs => simp at h1
  | succ n ih =>
    intro l fuel h1 h2 hne
    cases l with
    | nil => exact absurd rfl hne
    | cons x xs =>
      cases fuel with
      | zero => simp at h2
      | succ fuel =>
        rw [chunkLoop_cons]
        by_cases hrest : (x :: xs).drop s = []
        · rw [hrest]
          have hxs : xs.length < s := by
            have := congrArg List.length hrest
            rw [List.length_drop] at this
            simp at this ⊢; omega
          simp [Nat.div_eq_of_lt hxs]
        · have hd1 : ((x :: xs).drop s).length ≤ n := by
            rw [List.length_drop]; simp at h1 ⊢; omega
          have hd2 : ((x :: xs).drop s).length ≤ fuel := by
            rw [List.length_drop]; simp at h2 ⊢; omega
          have := ih ((x :: xs).drop s) fuel hd1 hd2 hrest
          rw [List.length_cons, this, List.length_drop]
          have hslt : s < xs.length + 1 := by
            by_contra hcon
            exact hrest (List.drop_eq_nil_of_le (by simpa using Nat.le_of_not_lt hcon))
          have hrw : (xs.length + 1) - 1 = ((xs.length + 1 - s) - 1) + s := by omega
          rw [List.length_cons, hrw, Nat.add_div_right _ hs]

/-- Function `split_text` factors through the word-level chunker. -/
theorem split_text_eq (text : String) (c o : Nat) :
    split_text text c o =
      (splitWords c o (pySplit text.toList)).map (fun ws => (joinWords ws).asString) := by
  unfold split_text splitWords
  by_cases h : text = ""
  · subst h; rfl
  · rw [if_neg h]
    by_cases hw : pySplit text.data = []
    · simp [hw, List.isEmpty_iff]
    · simp [hw, List.isEmpty_iff]

theorem pySplitAux_all_ws :
    ∀ cs : List Char, (∀ ch ∈ cs, ch.isWhitespace) → pySplitAux [] cs = [] := by
  intro cs h
  induction cs with
  | nil => rfl
  | cons c cs ih =>
    have hc : c.isWhitespace := h c (by simp)
    simp only [pySplitAux, hc, if_pos rfl, if_true]
    exact ih (fun ch hch => h ch (by simp [hch]))

theorem pySplitAux_words :
    ∀ (cs cur : List Char), (∀ ch ∈ cur, ch.isWhitespace = false) →
      ∀ w ∈ pySplitAux cur cs, w ≠ [] ∧ ∀ ch ∈ w, ch.isWhitespace = false := by
  intro cs
  induction cs with
  | nil =>
    intro cur hcur w hw
    by_cases hc : cur = []
    · simp [pySplitAux, hc] at hw
    · simp [pySplitAux, hc] at hw
      subst hw
      refine ⟨by simpa using hc, fun ch hch => hcur ch (by simpa using hch)⟩
  | cons c cs ih =>
    intro cur hcur w hw
    by_cases hws : c.isWhitespace
    · by_cases hc : cur = []
      · simp only [pySplitAux, hws, if_true, hc, if_pos rfl] at hw
        exact ih [] (by simp) w hw
      · simp only [pySplitAux, hws, if_true, if_neg hc, List.mem_cons] at hw
        rcases hw with hw | hw
        · subst hw
          refine ⟨by simpa using hc, fun ch hch => hcur ch (by simpa using hch)⟩
        · exact ih [] (by simp) w hw
    · simp only [pySplitAux, hws, if_false] at hw
      refine ih (c :: cur) ?_ w hw
      intro ch hch
      rcases List.mem_cons.mp hch with h | h
      · subst h; simpa using hws
      · exact hcur ch h

theorem pySplit_words (cs : List Char) :
    ∀ w ∈ pySplit cs, w ≠ [] ∧ ∀ ch ∈ w, ch.isWhitespace = false :=
  pySplitAux_words cs [] (by simp)

theorem pySplitAux_append_word :
    ∀ (w cur rest : List Char), (∀ ch ∈ w, ch.isWhitespace = false) →
      pySplitAux cur (w ++ rest) = pySplitAux (w.reverse ++ cur) rest := by
  intro w
  induction w with
  | nil => intro cur rest _; rfl
  | cons c w ih =>
    intro cur rest h
    have hc : c.isWhitespace = false := h c (by simp)
    have hstep : pySplitAux cur ((c :: w) ++ rest) = pySplitAux (c :: cur) (w ++ rest) := by
      simp [pySplitAux, hc]
    rw [hstep, ih (c :: cur) rest (fun ch hch => h ch (by simp [hch]))]
    simp [List.append_assoc]

theorem pySplit_joinWords :
    ∀ ws : List (List Char),
      (∀ w ∈ ws, w ≠ [] ∧ ∀ ch ∈ w, ch.isWhitespace = false) →
      pySplit (joinWords ws) = ws := by
  intro ws
  induction ws with
  | nil => intro _; rfl
  | cons w ws ih =>
    intro h
    obtain ⟨hwne, hwchars⟩ := h w (by simp)
    cases ws with
    | nil =>
      show pySplitAux [] (joinWords [w]) = [w]
      have : joinWords [w] = w := rfl
      rw [this]
      have := pySplitAux_append_word w [] [] hwchars
      simp only [List.append_nil] at this
      rw [this]
      simp [pySplitAux, hwne]
    | cons w2 ws2 =>
      show pySplitAux [] (joinWords (w :: w2 :: ws2)) = w :: w2 :: ws2
      have hjoin : joinWords (w :: w2 :: ws2) = w ++ ' ' :: joinWords (w2 :: ws2) := rfl
      rw [hjoin, pySplitAux_append_word w [] _ hwchars]
      simp only [List.append_nil]
      have hsp : (' ' : Char).isWhitespace = true := by decide
      have hrev : w.reverse ≠ [] := by simpa using hwne
      simp only [pySplitAux, hsp, if_true, if_neg hrev, List.reverse_reverse]
      rw [show pySplitAux [] (joinWords (w2 :: ws2)) = w2 :: ws2 from
        ih (fun x hx => h x (by simp [hx]))]

/-- C7: for every input text that is empty or consists only of whitespace
characters, `split_text` returns the empty list of chunks
(src/app.py lines 82-88). -/
theorem C7_whitespace_only_empty (text : String) (c o : Nat)
    (h : ∀ ch ∈ text.toList, ch.isWhitespace) :
    split_text text c o = [] := by
  rw [split_text_eq]
  have hnil : pySplit text.data = [] := pySplitAux_all_ws _ h
  simp [splitWords, hnil]

theorem C7_witness :
    (∀ ch ∈ (" \t ".toList), ch.isWhitespace) ∧ split_text " \t " 800 100 = [] :=
  ⟨by decide, C7_whitespace_only_empty " \t " 800 100 (by decide)⟩

/-- C8: with `overlap < chunk_size` the loop advances by the positive step
`chunk_size - overlap` each iteration, so `words.length` iterations of fuel
always suffice: the result is independent of any further fuel, i.e. the
embedded loop is total under the precondition (src/app.py lines 91-97). -/
theorem C8_loop_terminates (c o : Nat) (ho : o < c) (fuel : Nat) (words : List α)
    (hfuel : words.length ≤ fuel) :
    chunkLoop c (c - o) fuel words = chunkLoop c (c - o) words.length words :=
  chunkLoop_fuel c (c - o) (by omega) words.length fuel words le_rfl hfuel

theorem C8_witness :
    1 < 2 ∧ ([0, 1, 2] : List Nat).length ≤ 10 ∧
      chunkLoop 2 1 10 ([0, 1, 2] : List Nat) =
        chunkLoop 2 1 ([0, 1, 2] : List Nat).length [0, 1, 2] :=
  ⟨by decide, by decide, C8_loop_terminates 2 1 (by decide) 10 [0, 1, 2] (by decide)⟩

/-- C1 as stated is false: on the five-word text `"a b c d e"` with window
`w = 3` and overlap `o = 1`, `split_text` returns 3 chunks, while the claimed
formula `⌈(n - o) / (w - o)⌉ = ⌈(5 - 1) / 2⌉ = 2`. -/
theorem C1_counterexample :
    (split_text "a b c d e" 3 1).length = 3 ∧
    (pySplit "a b c d e".toList).length = 5 ∧
    ((5 - 1) + (3 - 1) - 1) / (3 - 1) = 2 ∧
    (split_text "a b c d e" 3 1).length ≠ ((5 - 1) + (3 - 1) - 1) / (3 - 1) :=
  ⟨by decide, by decide, by decide, by decide⟩

/-- C1 amended: for a text of `n > 0` words and `o < w`, `split_text` returns
exactly `⌈n / (w - o)⌉` chunks — the loop emits one chunk for every multiple
of `w - o` below `n` (src/app.py lines 91-97). -/
theorem C1_chunk_count (text : String) (c o : Nat) (ho : o < c)
    (hne : pySplit text.toList ≠ []) :
    (split_text text c o).length =
      ((pySplit text.toList).length + (c - o) - 1) / (c - o) := by
  rw [split_text_eq, List.length_map]
  unfold splitWords
  rw [if_neg (by simpa [List.isEmpty_iff] using hne)]
  have hs : 0 < c - o := by omega
  rw [chunkLoop_length c (c - o) hs (pySplit text.toList).length (pySplit text.toList)
        (pySplit text.toList).length le_rfl le_rfl hne]
  have hlen : 1 ≤ (pySplit text.toList).length := List.length_pos.mpr hne
  have hrw : (pySplit text.toList).length + (c - o) - 1 =
      ((pySplit text.toList).length - 1) + (c - o) := by omega
  rw [hrw, Nat.add_div_right _ hs]

theorem C1_witness :
    1 < 2 ∧ pySplit "p q r".toList ≠ [] ∧
      (split_text "p q r" 2 1).length =
        ((pySplit "p q r".toList).length + (2 - 1) - 1) / (2 - 1) :=
  ⟨by decide, by decide, C1_chunk_count "p q r" 2 1 (by decide) (by decide)⟩

theorem getD_map_of_lt (f : α → β) (l : List α) {k : Nat} (hk : k < l.length)
    (d : α) (e : β) : (l.map f).getD k e = f (l.getD k d) := by
  simp [List.getD_eq_getElem?_getD, List.getElem?_eq_getElem hk]

/-- Every word of every chunk is a word of the input list. -/
theorem chunkLoop_mem (w s : Nat) :
    ∀ (fuel : Nat) (l ch : List α), ch ∈ chunkLoop w s fuel l → ∀ a ∈ ch, a ∈ l := by
  intro fuel
  induction fuel with
  | zero =>
    intro l ch hch
    cases l with
    | nil => simp at hch
    | cons x xs => simp [chunkLoop] at hch
  | succ fuel ih =>
    intro l ch hch a ha
    cases l with
    | nil => simp at hch
    | cons x xs =>
      rw [chunkLoop_cons] at hch
      rcases List.mem_cons.mp hch with h | h
      · subst h; exact List.mem_of_mem_take ha
      · exact List.mem_of_mem_drop (ih _ ch h a ha)

theorem splitWords_chunk_words (c o : Nat) (words : List α) :
    ∀ ch ∈ splitWords c o words, ∀ a ∈ ch, a ∈ words := by
  intro ch hch
  unfold splitWords at hch
  by_cases h : words.isEmpty
  · rw [if_pos h] at hch; simp at hch
  · rw [if_neg h] at hch
    exact chunkLoop_mem c (c - o) words.length words ch hch

/-- The chunk strings produced by `split_text` tokenise back to the exact word
slices of the input: chunk `k` is `words[k*s : k*s + c]` with `s = c - o`. -/
theorem split_text_chunk_toWords (text : String) (c o k : Nat) (ho : o < c)
    (hk : k * (c - o) < (pySplit text.toList).length) :
    pySplit ((split_text text c o).getD k "").toList =
      ((pySplit text.toList).drop (k * (c - o))).take c := by
  have hs : 0 < c - o := by omega
  set words := pySplit text.toList with hwords
  have hne : words ≠ [] := by
    intro h; rw [h] at hk; simp at hk
  have hklen : k < (chunkLoop c (c - o) words.length words).length := by
    rw [chunkLoop_length c (c - o) hs words.length words words.length le_rfl le_rfl hne]
    have : k ≤ (words.length - 1) / (c - o) :=
      (Nat.le_div_iff_mul_le hs).mpr (by omega)
    omega
  rw [split_text_eq, ← hwords]
  unfold splitWords
  rw [if_neg (by simpa [List.isEmpty_iff] using hne)]
  rw [getD_map_of_lt _ _ hklen []]
  rw [chunkLoop_getD c (c - o) hs words.length words words.length k le_rfl le_rfl hk]
  have hgood : ∀ w ∈ (words.drop (k * (c - o))).take c,
      w ≠ [] ∧ ∀ ch ∈ w, ch.isWhitespace = false := by
    intro w hw
    exact pySplit_words text.toList w
      (List.mem_of_mem_drop (List.mem_of_mem_take hw))
  exact pySplit_joinWords _ hgood

/-- C2 as stated is false: on the four-word text `"a b c d"` with window
`w = 3` and overlap `o = 1`, the second chunk `"c d"` has only 2 words, not 3. -/
theorem C2_counterexample :
    split_text "a b c d" 3 1 = ["a b c", "c d"] ∧
    (pySplit ((split_text "a b c d" 3 1).getD 1 "").toList).length = 2 ∧
    (pySplit ((split_text "a b c d" 3 1).getD 1 "").toList).length ≠ 3 :=
  ⟨by decide, by decide, by decide⟩

/-- C2 amended: with `s = w - o` and `n` the input word count, chunk `k`
(`0`-based, defined while `k*s < n`) is the slice `words[k*s : k*s + w]`, so it
has `min w (n - k*s)` words — exactly `w` except where the document end
truncates it — and consecutive chunks `k`, `k+1` share exactly the words of the
slice boundary: dropping the first `s` words of chunk `k` yields the first `o`
words of chunk `k+1` (src/app.py lines 91-97). -/
theorem C2_chunk_size_overlap (text : String) (c o k : Nat) (ho : o < c)
    (hk : k * (c - o) < (pySplit text.toList).length) :
    (pySplit ((split_text text c o).getD k "").toList).length =
        min c ((pySplit text.toList).length - k * (c - o)) ∧
      ((k + 1) * (c - o) < (pySplit text.toList).length →
        (pySplit ((split_text text c o).getD k "").toList).drop (c - o) =
          (pySplit ((split_text text c o).getD (k + 1) "").toList).take o) := by
  constructor
  · rw [split_text_chunk_toWords text c o k ho hk]
    rw [List.length_take, List.length_drop]
  · intro hk1
    rw [split_text_chunk_toWords text c o k ho hk,
        split_text_chunk_toWords text c o (k + 1) ho hk1]
    rw [List.drop_take, List.take_take, List.drop_drop]
    have h1 : c - (c - o) = o := by omega
    have h2 : min o c = o := by omega
    have h3 : k * (c - o) + (c - o) = (k + 1) * (c - o) := by ring
    rw [h1, h2, h3]

theorem C2_witness :
    1 < 3 ∧ 0 * (3 - 1) < (pySplit "a b c d e".toList).length ∧
      (pySplit ((split_text "a b c d e" 3 1).getD 0 "").toList).length =
        min 3 ((pySplit "a b c d e".toList).length - 0 * (3 - 1)) :=
  ⟨by decide, by decide, (C2_chunk_size_overlap "a b c d e" 3 1 0 (by decide) (by decide)).1⟩

/-- Dropping `o` words of every chunk and concatenating yields the input minus
its first `o` words. -/
theorem chunkLoop_drop_flatten (c o : Nat) (ho : o < c) :
    ∀ (n : Nat) (l : List α) (fuel : Nat), l.length ≤ n → l.length ≤ fuel →
      ((chunkLoop c (c - o) fuel l).map (List.drop o)).flatten = l.drop o := by
  intro n
  induction n with
  | zero =>
    intro l fuel h1 _
    have hl : l = [] := List.length_eq_zero.mp (Nat.le_zero.mp h1)
    subst hl; simp
  | succ n ih =>
    intro l fuel h1 h2
    cases l with
    | nil => simp
    | cons x xs =>
      cases fuel with
      | zero => simp at h2
      | succ fuel =>
        rw [chunkLoop_cons]
        have hd1 : ((x :: xs).drop (c - o)).length ≤ n := by
          rw [List.length_drop]; simp at h1 ⊢; omega
        have hd2 : ((x :: xs).drop (c - o)).length ≤ fuel := by
          rw [List.length_drop]; simp at h2 ⊢; omega
        rw [List.map_cons, List.flatten_cons, ih ((x :: xs).drop (c - o)) fuel hd1 hd2]
        rw [List.drop_take, List.drop_drop]
        have h1' : c - o + o = c := by omega
        have h2' : o + (c - o) = c := by omega
        rw [h1']
        calc List.take (c - o) ((x :: xs).drop o) ++ (x :: xs).drop c
            = List.take (c - o) ((x :: xs).drop o) ++ ((x :: xs).drop o).drop (c - o) := by
              rw [List.drop_drop, h2']
          _ = (x :: xs).drop o := List.take_append_drop _ _

/-- Word-level round trip: reassembling the chunker's output recovers the
input word list. -/
theorem reassemble_splitWords (c o : Nat) (ho : o < c) (words : List α) :
    reassemble o (splitWords c o words) = words := by
  cases words with
  | nil => rfl
  | cons x xs =>
    unfold splitWords
    rw [if_neg (by simp)]
    have hlen : (x :: xs).length = xs.length + 1 := rfl
    rw [hlen, chunkLoop_cons]
    show (x :: xs).take c ++
        ((chunkLoop c (c - o) xs.length ((x :: xs).drop (c - o))).map
          (List.drop o)).flatten = x :: xs
    have hd1 : ((x :: xs).drop (c - o)).length ≤ xs.length := by
      rw [List.length_drop]; simp; omega
    rw [chunkLoop_drop_flatten c o ho xs.length ((x :: xs).drop (c - o)) xs.length hd1 hd1]
    rw [List.drop_drop]
    have : c - o + o = c := by omega
    rw [this, List.take_append_drop]

/-- C3: tokenising every chunk of `split_text`, dropping the first `o` words of
every chunk except the first, and concatenating reconstructs the input's word
list exactly — every input word is covered exactly once, in order
(src/app.py lines 82-98). -/
theorem C3_chunks_reassemble (text : String) (c o : Nat) (ho : o < c) :
    reassemble o ((split_text text c o).map (fun chunk => pySplit chunk.toList)) =
      pySplit text.toList := by
  rw [split_text_eq, List.map_map]
  have hcongr : ∀ ws ∈ splitWords c o (pySplit text.toList),
      ((fun chunk => pySplit chunk.toList) ∘ fun ws => (joinWords ws).asString) ws =
        id ws := by
    intro ws hws
    show pySplit ((joinWords ws).asString).toList = ws
    exact pySplit_joinWords ws (fun w hw =>
      pySplit_words text.toList w (splitWords_chunk_words c o _ ws hws w hw))
  rw [List.map_congr_left hcongr, List.map_id]
  exact reassemble_splitWords c o ho (pySplit text.toList)

theorem C3_witness :
    1 < 2 ∧
      reassemble 1 ((split_text "a b c" 2 1).map (fun chunk => pySplit chunk.toList)) =
        pySplit "a b c".toList :=
  ⟨by decide, C3_chunks_reassemble "a b c" 2 1 (by decide)⟩

theorem Sections.get_set (s : Sections) (a b : Label) (v : List Char) :
    (s.set a v).get b = if a = b then v else s.get b := by
  cases a <;> cases b <;> simp [Sections.get, Sections.set]

theorem emptySections_get (l : Label) : emptySections.get l = [] := by
  cases l <;> rfl

theorem detectSection_nil : detectSection [] = none := by decide

theorem stepLine_label (st : ParseState) (x : List Char) (l : Label)
    (h : detectSection (pyStrip x) = some l) :
    stepLine st x = { st with current := some l } := by
  have hne : pyStrip x ≠ [] := by
    intro hnil
    rw [hnil, detectSection_nil] at h
    exact Option.noConfusion h
  unfold stepLine
  rw [if_neg hne, h]

theorem stepLine_blank (st : ParseState) (x : List Char) (hb : pyStrip x = []) :
    stepLine st x = st := by
  unfold stepLine
  rw [if_pos hb]

theorem stepLine_skip (st : ParseState) (x : List Char)
    (hdet : detectSection (pyStrip x) = none) (hcur : st.current = none) :
    stepLine st x = st := by
  unfold stepLine
  by_cases hb : pyStrip x = []
  · rw [if_pos hb]
  · rw [if_neg hb, hdet, hcur]

theorem stepLine_content_sections (st : ParseState) (x : List Char) (cur : Label)
    (hcur : st.current = some cur) (hdet : detectSection (pyStrip x) = none)
    (hne : pyStrip x ≠ []) :
    (stepLine st x).sections = st.sections.set cur (if st.sections.get cur = [] then pyStrip x else st.sections.get cur ++ ' ' :: pyStrip x) := by
  unfold stepLine
  rw [if_neg hne, hdet, hcur]

/-- A non-empty section stays non-empty: the scan only appends. -/
theorem stepLine_mono (st : ParseState) (x : List Char) (l : Label)
    (h : st.sections.get l ≠ []) : (stepLine st x).sections.get l ≠ [] := by
  by_cases hb : pyStrip x = []
  · rw [stepLine_blank st x hb]; exact h
  · cases hdet : detectSection (pyStrip x) with
    | some l2 => rw [stepLine_label st x l2 hdet]; exact h
    | none =>
      cases hcur : st.current with
      | none => rw [stepLine_skip st x hdet hcur]; exact h
      | some cur =>
        rw [stepLine_content_sections st x cur hcur hdet hb, Sections.get_set]
        by_cases hcl : cur = l
        · rw [if_pos hcl]
          by_cases hold : st.sections.get cur = []
          · rw [hcl] at hold; exact absurd hold h
          · rw [if_neg hold]; simp
        · rw [if_neg hcl]; exact h

theorem foldl_stepLine_mono (lines : List (List Char)) :
    ∀ (st : ParseState) (l : Label), st.sections.get l ≠ [] →
      (lines.foldl stepLine st).sections.get l ≠ [] := by
  induction lines with
  | nil => intro st l h; exact h
  | cons x xs ih => intro st l h; exact ih (stepLine st x) l (stepLine_mono st x l h)

theorem foldl_of_contentful (l : Label) :
    ∀ (lines : List (List Char)) (st : ParseState),
      hasContentfulHeader l lines = true →
      (lines.foldl stepLine st).sections.get l ≠ [] := by
  intro lines
  induction lines with
  | nil => intro st h; simp [hasContentfulHeader] at h
  | cons a rest ih =>
    intro st h
    cases rest with
    | nil => simp [hasContentfulHeader] at h
    | cons b rest2 =>
      rw [show hasContentfulHeader l (a :: b :: rest2) =
            ((decide (detectSection (pyStrip a) = some l) &&
                decide (detectSection (pyStrip b) = none) && decide (pyStrip b ≠ [])) ||
              hasContentfulHeader l (b :: rest2)) from rfl,
          Bool.or_eq_true] at h
      rcases h with h | h
      · simp only [Bool.and_eq_true, decide_eq_true_eq] at h
        obtain ⟨⟨hdet_a, hdet_b⟩, hne_b⟩ := h
        rw [List.foldl_cons, List.foldl_cons]
        refine foldl_stepLine_mono rest2 _ l ?_
        rw [stepLine_label st a l hdet_a,
            stepLine_content_sections _ b l rfl hdet_b hne_b, Sections.get_set,
            if_pos rfl]
        split
        · exact hne_b
        · simp
      · rw [List.foldl_cons]
        exact ih (stepLine st a) h

theorem dropWhile_headD_not (p : α → Bool) (l : List α) (d : α)
    (hl : l.dropWhile p ≠ []) : p ((l.dropWhile p).headD d) = false := by
  induction l with
  | nil => exact absurd rfl hl
  | cons x xs ih =>
    by_cases hx : p x
    · rw [List.dropWhile_cons_of_pos hx] at hl ⊢
      exact ih hl
    · rw [List.dropWhile_cons_of_neg hx]
      simpa using hx

/-- A non-empty stripped string contains a non-whitespace character (its first
character is one). -/
theorem pyStrip_has_black (cs : List Char) (h : pyStrip cs ≠ []) :
    ∃ ch ∈ pyStrip cs, ch.isWhitespace = false := by
  have hzne : (cs.dropWhile Char.isWhitespace).reverse.dropWhile Char.isWhitespace ≠ [] := by
    intro hnil
    apply h
    unfold pyStrip
    rw [hnil]
    rfl
  refine ⟨((cs.dropWhile Char.isWhitespace).reverse.dropWhile Char.isWhitespace).headD ' ',
    ?_, ?_⟩
  · unfold pyStrip
    rw [List.mem_reverse]
    cases hcase : (cs.dropWhile Char.isWhitespace).reverse.dropWhile Char.isWhitespace with
    | nil => exact (hzne hcase).elim
    | cons a as => simp [hcase]
  · exact dropWhile_headD_not _ _ _ hzne

/-- Conversely, a string containing a non-whitespace character strips to a
non-empty string. -/
theorem pyStrip_ne_nil_of_black (cs : List Char) (ch : Char) (hmem : ch ∈ cs)
    (hws : ch.isWhitespace = false) : pyStrip cs ≠ [] := by
  intro hnil
  unfold pyStrip at hnil
  have hz : (cs.dropWhile Char.isWhitespace).reverse.dropWhile Char.isWhitespace = [] := by
    have := congrArg List.reverse hnil
    simpa using this
  have hdrop : ∀ a ∈ cs.dropWhile Char.isWhitespace, a.isWhitespace := by
    intro a ha
    exact List.dropWhile_eq_nil_iff.mp hz a (List.mem_reverse.mpr ha)
  have hsplit := List.takeWhile_append_dropWhile (p := Char.isWhitespace) (l := cs)
  rw [← hsplit] at hmem
  rcases List.mem_append.mp hmem with hm | hm
  · rw [List.mem_takeWhile_imp hm] at hws
    exact Bool.noConfusion hws
  · rw [hdrop ch hm] at hws
    exact Bool.noConfusion hws

theorem stepLine_good (st : ParseState) (x : List Char)
    (h : SectionsGood st.sections) : SectionsGood (stepLine st x).sections := by
  by_cases hb : pyStrip x = []
  · rw [stepLine_blank st x hb]; exact h
  · cases hdet : detectSection (pyStrip x) with
    | some l2 => rw [stepLine_label st x l2 hdet]; exact h
    | none =>
      cases hcur : st.current with
      | none => rw [stepLine_skip st x hdet hcur]; exact h
      | some cur =>
        intro l hl
        rw [stepLine_content_sections st x cur hcur hdet hb, Sections.get_set] at hl ⊢
        by_cases hcl : cur = l
        · rw [if_pos hcl] at hl ⊢
          obtain ⟨ch, hchmem, hchws⟩ := pyStrip_has_black x hb
          split
          · exact ⟨ch, hchmem, hchws⟩
          · exact ⟨ch, by simp [hchmem], hchws⟩
        · rw [if_neg hcl] at hl ⊢
          exact h l hl

theorem foldl_stepLine_good (lines : List (List Char)) :
    ∀ st : ParseState, SectionsGood st.sections →
      SectionsGood ((lines.foldl stepLine st).sections) := by
  induction lines with
  | nil => intro st h; exact h
  | cons x xs ih => intro st h; exact ih (stepLine st x) (stepLine_good st x h)

theorem parseLines_good (lines : List (List Char)) : SectionsGood (parseLines lines) :=
  foldl_stepLine_good lines initParse (fun l hl => absurd (emptySections_get l) hl)

/-- C4 as stated is false: in this input every one of the five section labels
appears verbatim, yet no label line is followed by content, so the formatted
output shows the placeholder under all five labels. -/
theorem C4_counterexample :
    (∀ l : Label, containsSub l.name
      ("1. KEY CONCEPT\n2. MATHEMATICAL FORMULATION\n3. MATHEMATICAL INTUITION\n4. PRACTICAL IMPLICATIONS\n5. SUMMARY".toList) = true) ∧
    format_response
        "1. KEY CONCEPT\n2. MATHEMATICAL FORMULATION\n3. MATHEMATICAL INTUITION\n4. PRACTICAL IMPLICATIONS\n5. SUMMARY" =
      "## 📊 Research Paper Analysis\n\n" ++
        "### KEY CONCEPT\n*Information not specified in response*\n\n" ++
        "### MATHEMATICAL FORMULATION\n*Information not specified in response*\n\n" ++
        "### MATHEMATICAL INTUITION\n*Information not specified in response*\n\n" ++
        "### PRACTICAL IMPLICATIONS\n*Information not specified in response*\n\n" ++
        "### SUMMARY\n*Information not specified in response*\n\n" :=
  ⟨by decide, by decide⟩

/-- C4 amended: if for each of the five labels some line of the input is
detected as that label's header and is immediately followed by a non-blank
line that is not itself detected as a header, then every label's accumulated
section is non-empty and is rendered with its content — not the placeholder —
in the output (src/app.py lines 149-182). -/
theorem C4_all_sections_content (raw : String)
    (h : ∀ l : Label, hasContentfulHeader l (splitOnChar '\n' raw.toList) = true) :
    ∀ l : Label,
      (parseLines (splitOnChar '\n' raw.toList)).get l ≠ [] ∧
      renderSection raw.toList (parseLines (splitOnChar '\n' raw.toList)) l =
        "### ".toList ++ l.name ++ '\n' ::
          (pyStrip ((parseLines (splitOnChar '\n' raw.toList)).get l) ++ "\n\n".toList) := by
  intro l
  have hne : (parseLines (splitOnChar '\n' raw.toList)).get l ≠ [] :=
    foldl_of_contentful l _ initParse (h l)
  have hstrip : pyStrip ((parseLines (splitOnChar '\n' raw.toList)).get l) ≠ [] := by
    obtain ⟨ch, hmem, hws⟩ := parseLines_good (splitOnChar '\n' raw.toList) l hne
    exact pyStrip_ne_nil_of_black _ ch hmem hws
  refine ⟨hne, ?_⟩
  unfold renderSection
  rw [if_pos ⟨hne, hstrip⟩]

theorem C4_witness :
    (∀ l : Label, hasContentfulHeader l (splitOnChar '\n'
      ("KEY CONCEPT\nalpha\nMATHEMATICAL FORMULATION\nbeta\nMATHEMATICAL INTUITION\ngamma\nPRACTICAL IMPLICATIONS\ndelta\nSUMMARY\nepsilon".toList)) = true) ∧
    (parseLines (splitOnChar '\n'
      ("KEY CONCEPT\nalpha\nMATHEMATICAL FORMULATION\nbeta\nMATHEMATICAL INTUITION\ngamma\nPRACTICAL IMPLICATIONS\ndelta\nSUMMARY\nepsilon".toList))).get
        Label.keyConcept ≠ [] :=
  ⟨by decide,
    (C4_all_sections_content
      "KEY CONCEPT\nalpha\nMATHEMATICAL FORMULATION\nbeta\nMATHEMATICAL INTUITION\ngamma\nPRACTICAL IMPLICATIONS\ndelta\nSUMMARY\nepsilon"
      (by decide) Label.keyConcept).1⟩

theorem foldl_stepLine_none (lines : List (List Char))
    (h : ∀ line ∈ lines, detectSection (pyStrip line) = none) :
    ∀ st : ParseState, st.current = none → lines.foldl stepLine st = st := by
  induction lines with
  | nil => intro st _; rfl
  | cons x xs ih =>
    intro st hcur
    rw [List.foldl_cons]
    have hx : stepLine st x = st := by
      by_cases hb : pyStrip x = []
      · exact stepLine_blank st x hb
      · exact stepLine_skip st x (h x (by simp)) hcur
    rw [hx]
    exact ih (fun line hl => h line (by simp [hl])) st hcur

/-- C6 as stated is false on blank input: the empty string contains no
recognizable label, yet the output is just the bare header — no label maps to
the placeholder, which never occurs in the output at all
(src/app.py lines 179-181 emit placeholders only when `raw.strip()` is
non-empty). -/
theorem C6_counterexample :
    (∀ line ∈ splitOnChar '\n' ("".toList), detectSection (pyStrip line) = none) ∧
    format_response "" = "## 📊 Research Paper Analysis\n\n" ∧
    containsSub placeholder (format_response "").toList = false :=
  ⟨by decide, by decide, by decide⟩

/-- C6 amended: if the input is not an error string, is not blank, and no line
of it is detected as a section header, then every one of the five labels maps
to the placeholder: the output is exactly the header followed by the five
placeholder sections (src/app.py lines 146-183). -/
theorem C6_no_labels_all_placeholder (raw : String)
    (herr : errPrefixed raw.toList = false)
    (hblank : pyStrip raw.toList ≠ [])
    (h : ∀ line ∈ splitOnChar '\n' raw.toList, detectSection (pyStrip line) = none) :
    format_response raw =
      "## 📊 Research Paper Analysis\n\n" ++
        "### KEY CONCEPT\n*Information not specified in response*\n\n" ++
        "### MATHEMATICAL FORMULATION\n*Information not specified in response*\n\n" ++
        "### MATHEMATICAL INTUITION\n*Information not specified in response*\n\n" ++
        "### PRACTICAL IMPLICATIONS\n*Information not specified in response*\n\n" ++
        "### SUMMARY\n*Information not specified in response*\n\n" := by
  have hsecs : parseLines (splitOnChar '\n' raw.toList) = emptySections := by
    show ((splitOnChar '\n' raw.toList).foldl stepLine initParse).sections = emptySections
    rw [foldl_stepLine_none _ h initParse rfl]
    rfl
  have hrender : ∀ l : Label,
      renderSection raw.toList emptySections l =
        "### ".toList ++ l.name ++ '\n' :: (placeholder ++ "\n\n".toList) := by
    intro l
    unfold renderSection
    rw [if_neg (fun hcontra => hcontra.1 (emptySections_get l)), if_pos hblank]
  unfold format_response
  rw [if_neg (by simp [show errPrefixed raw.data = false from herr]), hsecs]
  simp only [labelOrder, List.foldl_cons, List.foldl_nil, hrender]
  decide

theorem C6_witness :
    (errPrefixed "hello there".toList = false ∧ pyStrip "hello there".toList ≠ [] ∧
      ∀ line ∈ splitOnChar '\n' "hello there".toList,
        detectSection (pyStrip line) = none) ∧
    format_response "hello there" =
      "## 📊 Research Paper Analysis\n\n" ++
        "### KEY CONCEPT\n*Information not specified in response*\n\n" ++
        "### MATHEMATICAL FORMULATION\n*Information not specified in response*\n\n" ++
        "### MATHEMATICAL INTUITION\n*Information not specified in response*\n\n" ++
        "### PRACTICAL IMPLICATIONS\n*Information not specified in response*\n\n" ++
        "### SUMMARY\n*Information not specified in response*\n\n" :=
  ⟨⟨by decide, by decide, by decide⟩,
    C6_no_labels_all_placeholder "hello there" (by decide) (by decide) (by decide)⟩

/-- C10: the scan keeps only the detected label of a header line and discards
the line's own text: replacing a header line by any other line detected as the
same label leaves the parsed sections unchanged, so only the lines strictly
between a header and the next header are ever accumulated
(src/app.py lines 149-171). -/
theorem C10_header_line_text_discarded (ls1 ls2 : List (List Char))
    (x y : List Char) (l : Label)
    (hx : detectSection (pyStrip x) = some l)
    (hy : detectSection (pyStrip y) = some l) :
    parseLines (ls1 ++ x :: ls2) = parseLines (ls1 ++ y :: ls2) := by
  unfold parseLines
  rw [List.foldl_append, List.foldl_append, List.foldl_cons, List.foldl_cons,
    stepLine_label _ x l hx, stepLine_label _ y l hy]

theorem C10_witness :
    (detectSection (pyStrip "1. KEY CONCEPT: the key idea is attention".toList) =
        some Label.keyConcept ∧
      detectSection (pyStrip "KEY CONCEPT".toList) = some Label.keyConcept) ∧
    parseLines ([] ++ "1. KEY CONCEPT: the key idea is attention".toList ::
        ["some content".toList]) =
      parseLines ([] ++ "KEY CONCEPT".toList :: ["some content".toList]) :=
  ⟨⟨by decide, by decide⟩,
    C10_header_line_text_discarded [] ["some content".toList]
      "1. KEY CONCEPT: the key idea is attention".toList "KEY CONCEPT".toList
      Label.keyConcept (by decide) (by decide)⟩

/-- C5: every failing call returns (never raises) its designated error
string — the timeout literal, the connection-failure literal, or the
`API Error: {status} - {body}` string for a non-200 reply — and
`format_response` maps any of them to the `**❌ …**` error marker instead of
the five-section layout (src/app.py lines 100-129 and 131-135). -/
theorem C5_failures_yield_error_strings (oc : RequestOutcome)
    (h : isFailure oc = true) :
    (query_ollama oc =
        "Error: Request timeout - the AI service is taking too long to respond." ∨
      query_ollama oc =
        "Error: Cannot connect to AI service at http://localhost:11434. Please check if the backend is running." ∨
      ∃ (status : Nat) (text : String),
        query_ollama oc = "API Error: " ++ toString status ++ " - " ++ text) ∧
    errPrefixed (query_ollama oc).toList = true ∧
    format_response (query_ollama oc) = "**❌ " ++ query_ollama oc ++ "**" := by
  cases oc with
  | notReady => simp [isFailure] at h
  | otherException msg => simp [isFailure] at h
  | timeout => exact ⟨Or.inl (by decide), by decide, by decide⟩
  | connectionError => exact ⟨Or.inr (Or.inl (by decide)), by decide, by decide⟩
  | httpReply status text responseField =>
    simp only [isFailure, decide_eq_true_eq] at h
    have hq : query_ollama (.httpReply status text responseField) =
        "API Error: " ++ toString status ++ " - " ++ text := by
      show (if status = 200 then responseField.getD "No response from model."
          else "API Error: " ++ toString status ++ " - " ++ text) =
        "API Error: " ++ toString status ++ " - " ++ text
      rw [if_neg h]
    have h1 : ("API Error: " ++ toString status ++ " - " ++ text).toList =
        "API Error:".toList ++
          (' ' :: ((toString status).toList ++ (" - ".toList ++ text.toList))) := by
      show ("API Error: " ++ toString status ++ " - " ++ text).data =
        "API Error:".data ++ (' ' :: ((toString status).data ++ (" - ".data ++ text.data)))
      rw [show ("API Error:".data : List Char) ++
            (' ' :: ((toString status).data ++ (" - ".data ++ text.data))) =
          ("API Error:".data ++ [' ']) ++ ((toString status).data ++ (" - ".data ++ text.data))
          from by simp]
      rw [show ("API Error:".data : List Char) ++ [' '] = "API Error: ".data from by decide]
      simp [String.data_append]
    have herr : errPrefixed (query_ollama (.httpReply status text responseField)).toList
        = true := by
      rw [hq]
      unfold errPrefixed
      rw [h1, List.isPrefixOf_iff_prefix.mpr (List.prefix_append _ _), Bool.or_true]
    refine ⟨Or.inr (Or.inr ⟨status, text, hq⟩), herr, ?_⟩
    unfold format_response
    rw [if_pos herr]

theorem C5_witness :
    isFailure RequestOutcome.timeout = true ∧
    format_response (query_ollama RequestOutcome.timeout) =
      "**❌ " ++ query_ollama RequestOutcome.timeout ++ "**" :=
  ⟨by decide,
    (C5_failures_yield_error_strings RequestOutcome.timeout (by decide)).2.2⟩

theorem pySplitAux_ne_nil (cs : List Char) :
    ∀ cur : List Char, cur ≠ [] → pySplitAux cur cs ≠ [] := by
  induction cs with
  | nil =>
    intro cur h
    simp [pySplitAux, h]
  | cons c cs ih =>
    intro cur h
    by_cases hc : c.isWhitespace
    · simp [pySplitAux, hc, h]
    · simp only [pySplitAux, hc, if_false]
      exact ih (c :: cur) (by simp)

theorem pySplitAux_ne_nil_of_black :
    ∀ cs : List Char, (∃ ch ∈ cs, ch.isWhitespace = false) → pySplitAux [] cs ≠ [] := by
  intro cs
  induction cs with
  | nil => rintro ⟨ch, hmem, _⟩; simp at hmem
  | cons c cs ih =>
    rintro ⟨ch, hmem, hws⟩
    by_cases hc : c.isWhitespace
    · have hmem' : ch ∈ cs := by
        rcases List.mem_cons.mp hmem with h | h
        · rw [h, hc] at hws; exact Bool.noConfusion hws
        · exact h
      rw [show pySplitAux [] (c :: cs) = pySplitAux [] cs from by simp [pySplitAux, hc]]
      exact ih ⟨ch, hmem', hws⟩
    · rw [show pySplitAux [] (c :: cs) = pySplitAux [c] cs from by simp [pySplitAux, hc]]
      exact pySplitAux_ne_nil cs [c] (by simp)

theorem splitWords_ne_nil (c o : Nat) (words : List α) (h : words ≠ []) :
    splitWords c o words ≠ [] := by
  unfold splitWords
  rw [if_neg (by simpa [List.isEmpty_iff] using h)]
  cases words with
  | nil => exact absurd rfl h
  | cons x xs =>
    rw [show (x :: xs).length = xs.length + 1 from rfl, chunkLoop_cons]
    simp

theorem split_text_ne_nil (text : String) (c o : Nat)
    (h : pySplit text.toList ≠ []) : split_text text c o ≠ [] := by
  rw [split_text_eq]
  intro hcontra
  exact splitWords_ne_nil c o _ h (by simpa using hcontra)

/-- C9: in every reachable session state, `processed = true` implies that the
chunk list is non-empty: the invariant holds initially and is preserved by
every action, because `processed` is only set after `split_text` is applied to
a stripped extracted text of more than 100 characters, which always yields at
least one chunk (src/app.py lines 18-23, 82-98, 247-261). -/
theorem C9_processed_implies_chunks (s : SessionState) (h : Reachable s) :
    s.processed = true → s.chunks ≠ [] := by
  induction h with
  | init => intro hp; exact Bool.noConfusion hp
  | step hr hstep ih =>
    cases hstep with
    | checkReady ok => exact ih
    | analyze => exact ih
    | process raw =>
      intro hp
      unfold applyProcess at hp ⊢
      by_cases hcond : stripS raw ≠ "" ∧ 100 < (stripS raw).length
      · rw [if_pos hcond] at hp ⊢
        show split_text (stripS raw) 800 100 ≠ []
        apply split_text_ne_nil
        rw [show (stripS raw).toList = pyStrip raw.toList from rfl]
        have hstrip_ne : pyStrip raw.toList ≠ [] := by
          intro hnil
          apply hcond.1
          show (pyStrip raw.toList).asString = ""
          rw [hnil]
          rfl
        obtain ⟨ch, hmem, hws⟩ := pyStrip_has_black raw.toList hstrip_ne
        exact pySplitAux_ne_nil_of_black _ ⟨ch, hmem, hws⟩
      · rw [if_neg hcond] at hp ⊢
        exact ih hp

theorem C9_witness :
    (applyProcess initialState (String.mk (List.replicate 101 'a'))).processed = true ∧
    (applyProcess initialState (String.mk (List.replicate 101 'a'))).chunks ≠ [] :=
  ⟨by decide,
    C9_processed_implies_chunks _
      (Reachable.step Reachable.init
        (Step.process initialState (String.mk (List.replicate 101 'a'))))
      (by decide)⟩

end PaperAnalyzer
